import Mathlib

/-!
# Verification of a parallel segmented Sieve of Eratosthenes

Shallow embedding of `src/8_threads.cpp`: a program that computes all primes
in an inclusive range `[start, end]` by
* computing the base primes up to `sqrt end` with a classic sieve
  (`simpleSieve`),
* partitioning the range into `numThreads` contiguous chunks
  (`chunkList`, mirroring the dispatch loop in `main`),
* sieving each chunk with the base primes (`sieveWorker`), each worker
  appending its local result to a shared vector under a mutex,
* sorting the merged result and computing count, sum and the last ten
  primes (`summarize`).

C++ `int` / `long long` values occurring here (indices, primes, sums) are
modelled as `Nat`; all of them are non-negative in the program and no claim
concerns integer wrap-around.  The boolean vectors are modelled as
`List Bool` with explicitly bounds-checked reads (`rdB`) and writes (`wrB`)
that return `none` on an out-of-range access — the situations that are
undefined behaviour in the C++ (`vector<bool>::operator[]` out of range,
division by zero, non-terminating loop) are exactly the `none` results of
the embedded functions.  Loops are embedded as structurally recursive
functions on an explicit iteration budget (`fuel`); every function is given
a budget that provably suffices (the budget can run out only when the C++
loop would not terminate, in which case `none` is returned).
-/

/-- Element lookup in a boolean vector, `false` past the end.  Bounds are
enforced separately by `rdB` / `wrB`. -/
def getB : List Bool → Nat → Bool
  | [], _ => false
  | b :: _, 0 => b
  | _ :: l, n + 1 => getB l n

/-- In-place update of a boolean vector (identity past the end; bounds are
enforced separately by `wrB`). -/
def setB : List Bool → Nat → Bool → List Bool
  | [], _, _ => []
  | _ :: l, 0, b => b :: l
  | a :: l, n + 1, b => a :: setB l n b

/-- Bounds-checked read `v[n]`: `none` models the undefined behaviour of an
out-of-range `vector<bool>` access. -/
def rdB (l : List Bool) (n : Nat) : Option Bool :=
  if n < l.length then some (getB l n) else none

/-- Bounds-checked write `v[n] = b`: `none` models the undefined behaviour
of an out-of-range `vector<bool>` access. -/
def wrB (l : List Bool) (n : Nat) (b : Bool) : Option (List Bool) :=
  if n < l.length then some (setB l n b) else none

theorem length_setB (l : List Bool) (n : Nat) (b : Bool) :
    (setB l n b).length = l.length := by
  induction l generalizing n with
  | nil => rfl
  | cons a l ih =>
    cases n with
    | zero => rfl
    | succ n => simp [setB, ih]

theorem getB_setB_self (l : List Bool) (n : Nat) (b : Bool) (h : n < l.length) :
    getB (setB l n b) n = b := by
  induction l generalizing n with
  | nil => simp at h
  | cons a l ih =>
    cases n with
    | zero => rfl
    | succ n => exact ih n (by simpa using h)

theorem getB_setB_other (l : List Bool) (m n : Nat) (b : Bool) (h : m ≠ n) :
    getB (setB l n b) m = getB l m := by
  induction l generalizing m n with
  | nil => rfl
  | cons a l ih =>
    cases n with
    | zero => cases m with
      | zero => exact absurd rfl h
      | succ m => rfl
    | succ n => cases m with
      | zero => rfl
      | succ m => exact ih m n (by omega)

theorem getB_replicate (k n : Nat) (b : Bool) (h : n < k) :
    getB (List.replicate k b) n = b := by
  induction k generalizing n with
  | zero => omega
  | succ k ih =>
    cases n with
    | zero => rfl
    | succ n => exact ih n (by omega)

theorem wrB_eq_some (l : List Bool) (n : Nat) (b : Bool) (h : n < l.length) :
    wrB l n b = some (setB l n b) := by
  simp [wrB, h]

theorem rdB_eq_some (l : List Bool) (n : Nat) (h : n < l.length) :
    rdB l n = some (getB l n) := by
  simp [rdB, h]

/-! ## Base sieve (`simpleSieve`, lines 17–40)

```cpp
vector<int> simpleSieve(int limit) {
    vector<bool> isPrime(limit + 1, true);
    vector<int> primes;
    isPrime[0] = isPrime[1] = false;          // writes index 1, then index 0
    for (int i = 2; i * i <= limit; i++) {
        if (isPrime[i]) {
            for (int j = i * i; j <= limit; j += i) { isPrime[j] = false; }
        }
    }
    for (int i = 2; i <= limit; i++) { if (isPrime[i]) primes.push_back(i); }
    return primes;
}
```
-/

/-- Inner marking loop of `simpleSieve`: `for (j = j0; j <= limit; j += i)
isPrime[j] = false`.  `fuel` is an iteration budget; exhausting it while the
loop guard still holds (possible only when the C++ loop diverges, i.e.
`i = 0`) yields `none`. -/
def markMulAux (limit i : Nat) : Nat → Nat → List Bool → Option (List Bool)
  | 0, j, arr => if j ≤ limit then none else some arr
  | fuel + 1, j, arr =>
    if j ≤ limit then do
      let arr2 ← wrB arr j false
      markMulAux limit i fuel (j + i) arr2
    else some arr

/-- Outer loop of `simpleSieve`: `for (i = i0; i * i <= limit; i++)`,
marking the multiples of each `i` still flagged prime. -/
def sieveLoopAux (limit : Nat) : Nat → Nat → List Bool → Option (List Bool)
  | 0, i, arr => if i * i ≤ limit then none else some arr
  | fuel + 1, i, arr =>
    if i * i ≤ limit then do
      let b ← rdB arr i
      let arr2 ← if b then markMulAux limit i (limit + 1) (i * i) arr else some arr
      sieveLoopAux limit fuel (i + 1) arr2
    else some arr

/-- Collection loop of `simpleSieve`: `for (i = i0; i <= limit; i++)
if (isPrime[i]) primes.push_back(i)`. -/
def collectAux (limit : Nat) (arr : List Bool) : Nat → Nat → Option (List Nat)
  | 0, i => if i ≤ limit then none else some []
  | fuel + 1, i =>
    if i ≤ limit then do
      let b ← rdB arr i
      let rest ← collectAux limit arr fuel (i + 1)
      return if b then i :: rest else rest
    else some []

/-- Function `simpleSieve` (lines 17–40).  The double assignment
`isPrime[0] = isPrime[1] = false` writes index 1 first; for `limit = 0` that
write is out of range (the vector has a single element), which the model
reports as `none`. -/
def simpleSieve (limit : Nat) : Option (List Nat) := do
  let isPrime := List.replicate (limit + 1) true
  let isPrime ← wrB isPrime 1 false
  let isPrime ← wrB isPrime 0 false
  let isPrime ← sieveLoopAux limit (limit + 1) 2 isPrime
  collectAux limit isPrime (limit + 1) 2

example : simpleSieve 10 = some [2, 3, 5, 7] := by rfl
example : simpleSieve 1 = some [] := by rfl
example : simpleSieve 0 = none := by rfl
example : simpleSieve 30 = some [2, 3, 5, 7, 11, 13, 17, 19, 23, 29] := by rfl

/-! ## Segment worker (`sieveWorker`, lines 43–66)

```cpp
void sieveWorker(long long start, long long end,
                 const vector<int>& smallPrimes, vector<long long>& result) {
    vector<bool> isPrime(end - start + 1, true);
    for (int prime : smallPrimes) {
        long long firstMultiple =
            max((long long)prime * prime, ((start + prime - 1) / prime) * prime);
        for (long long j = firstMultiple; j <= end; j += prime) {
            isPrime[j - start] = false;
        }
    }
    vector<long long> localPrimes;
    for (long long i = start; i <= end; i++) {
        if (i > 1 && isPrime[i - start]) { localPrimes.push_back(i); }
    }
    lock_guard<mutex> lock(resultMutex);
    result.insert(result.end(), localPrimes.begin(), localPrimes.end());
}
```

The worker's side effect (a mutex-guarded bulk append into the shared
vector) is modelled at the coordinator level: each worker returns its
`localPrimes`, and the shared vector's final content is the concatenation
of those blocks in some completion order (an arbitrary permutation of the
dispatch order; claim C5 quantifies over it). -/

/-- Line 48, `firstMultiple`: `max(prime*prime, ((start+prime-1)/prime)*prime)`,
the first multiple of `prime` that is both ≥ `prime²` and ≥ `start`. -/
def firstMul (start p : Nat) : Nat :=
  max (p * p) (((start + p - 1) / p) * p)

/-- Inner marking loop of `sieveWorker` (lines 49–51):
`for (j = firstMultiple; j <= end; j += prime) isPrime[j - start] = false`.
In C++ the index `j - start` is a signed `long long`: a negative value would
be an out-of-range access, so the model demands `start ≤ j` before
subtracting and reports `none` otherwise.  Exhausted fuel with the guard
still true (the diverging `prime = 0` loop) is also `none`. -/
def markSegAux (s e p : Nat) : Nat → Nat → List Bool → Option (List Bool)
  | 0, j, arr => if j ≤ e then none else some arr
  | fuel + 1, j, arr =>
    if j ≤ e then
      if s ≤ j then do
        let arr2 ← wrB arr (j - s) false
        markSegAux s e p fuel (j + p) arr2
      else none
    else some arr

/-- The `for (int prime : smallPrimes)` loop of `sieveWorker` (lines 47–52). -/
def markAllPrimes (s e : Nat) : List Nat → List Bool → Option (List Bool)
  | [], arr => some arr
  | p :: ps, arr => do
    let arr2 ← markSegAux s e p (e + 1) (firstMul s p) arr
    markAllPrimes s e ps arr2

/-- Collection loop of `sieveWorker` (lines 57–61):
`for (i = start; i <= end; i++) if (i > 1 && isPrime[i - start]) push_back(i)`.
`&&` short-circuits, so `isPrime[i - start]` is read only when `i > 1`. -/
def collectSegAux (s e : Nat) (arr : List Bool) : Nat → Nat → Option (List Nat)
  | 0, i => if i ≤ e then none else some []
  | fuel + 1, i =>
    if i ≤ e then do
      let keep ← if 1 < i then rdB arr (i - s) else pure false
      let rest ← collectSegAux s e arr fuel (i + 1)
      return if keep then i :: rest else rest
    else some []

/-- Function `sieveWorker` (lines 43–66), returning the worker's `localPrimes`. -/
def sieveWorker (s e : Nat) (smallPrimes : List Nat) : Option (List Nat) := do
  let isPrime := List.replicate (e - s + 1) true
  let isPrime ← markAllPrimes s e smallPrimes isPrime
  collectSegAux s e isPrime (e + 1) s

example : sieveWorker 1 30 [2, 3, 5] = some [2, 3, 5, 7, 11, 13, 17, 19, 23, 29] := by rfl
example : sieveWorker 26 50 [2, 3, 5, 7] = some [29, 31, 37, 41, 43, 47] := by rfl

/-! ## Range partitioner and coordinator (`main`, lines 82–101) -/

/-- Lines 82–83: `chunkSize = (rangeSize + numThreads - 1) / numThreads`. -/
def chunkSize (s e t : Nat) : Nat :=
  ((e - s + 1) + t - 1) / t

/-- The thread-dispatch loop of `main` (lines 86–94): for iteration `i` the
chunk is `[start + i*chunkSize, min(end, chunkStart + chunkSize - 1)]`, with
a `break` once `chunkStart > end`.  The second argument counts the
remaining loop iterations (`numThreads - i`). -/
def chunkLoop (s e cs : Nat) : Nat → Nat → List (Nat × Nat)
  | _, 0 => []
  | i, t + 1 =>
    let cStart := s + i * cs
    let cEnd := min e (cStart + cs - 1)
    if cStart ≤ e then (cStart, cEnd) :: chunkLoop s e cs (i + 1) t else []

/-- The list of chunks dispatched by `main` for range `[s, e]` and `t`
threads. -/
def chunkList (s e t : Nat) : List (Nat × Nat) :=
  chunkLoop s e (chunkSize s e t) 0 t

example : chunkList 1 100 4 = [(1, 25), (26, 50), (51, 75), (76, 100)] := by rfl
example : chunkList 1 30 8 =
    [(1, 4), (5, 8), (9, 12), (13, 16), (17, 20), (21, 24), (25, 28), (29, 30)] := by rfl
example : chunkList 1 3 8 = [(1, 1), (2, 2), (3, 3)] := by rfl

/-- One worker per dispatched chunk, each producing its local prime list
(lines 86–99: dispatch then join-all). -/
def runWorkers (bp : List Nat) : List (Nat × Nat) → Option (List (List Nat))
  | [] => some []
  | c :: cs => do
    let l ← sieveWorker c.1 c.2 bp
    let ls ← runWorkers bp cs
    return l :: ls

/-! ## Aggregator (`main`, lines 101–115) -/

/-- Line 101, `sort(finalPrimes.begin(), finalPrimes.end())`: sort
ascending. -/
def sortNat (l : List Nat) : List Nat :=
  List.insertionSort (· ≤ ·) l

/-- Summary statistics produced by `main`: prime count, prime sum (a
`long long` accumulator in the C++, wide enough for every range the claims
exercise, modelled as an unbounded natural), and the last ten primes. -/
structure Summary where
  count : Nat
  sum : Nat
  topTen : List Nat
deriving DecidableEq, Repr

/-- Aggregation in `main` (lines 101–115): sort the merged result, then
`sum += p` over the sorted vector, `count = finalPrimes.size()`, and
`for (i = max(0, count - 10); i < count; ++i) topTenPrimes.push_back(...)`
— i.e. the last (up to) ten entries of the sorted vector. -/
def summarize (results : List Nat) : Summary :=
  let finalPrimes := sortNat results
  let sum := finalPrimes.foldl (· + ·) 0
  let count := finalPrimes.length
  let topTen := finalPrimes.drop (count - 10)
  ⟨count, sum, topTen⟩

/-- The full pipeline of `main`, parameterised by the configuration
constants `start`, `end`, `numThreads` of lines 70–72 (the committed
constants are `1`, `10^8`, `8`).  `long long limit = sqrt(end)` (line 76)
is the integer square root — exact for the `double` computation at every
range magnitude exercised here.  The merged vector is the concatenation of
the workers' blocks; `runMain` uses dispatch order (the claims about
scheduling nondeterminism quantify over permutations of the blocks). -/
def runMain (s e t : Nat) : Option (List Nat × Summary) := do
  let smallPrimes ← simpleSieve (Nat.sqrt e)
  let blocks ← runWorkers smallPrimes (chunkList s e t)
  let finalPrimes := blocks.flatMap id
  return (sortNat finalPrimes, summarize finalPrimes)

example : runMain 1 30 8 =
    some ([2, 3, 5, 7, 11, 13, 17, 19, 23, 29],
      ⟨10, 129, [2, 3, 5, 7, 11, 13, 17, 19, 23, 29]⟩) := by
  have h : Nat.sqrt 30 = 5 := by norm_num
  simp only [runMain, h]
  rfl

example : runMain 1 100 4 =
    some ([2, 3, 5, 7, 11, 13, 17, 19, 23, 29, 31, 37, 41, 43, 47,
           53, 59, 61, 67, 71, 73, 79, 83, 89, 97],
      ⟨25, 1060, [53, 59, 61, 67, 71, 73, 79, 83, 89, 97]⟩) := by
  have h : Nat.sqrt 100 = 10 := by norm_num
  simp only [runMain, h]
  rfl

/-! ## Correctness of the base sieve -/

/-- Predicate `surv I n`: no prime below `I` witnesses compositeness of `n` (i.e. no
prime `p < I` with `p ∣ n` and `p² ≤ n`).  This is the loop invariant of
the outer `simpleSieve` loop: after processing `i = 2, …, I - 1`, entry `n`
is still flagged iff `2 ≤ n` and `surv I n`. -/
def surv (I n : Nat) : Prop :=
  ∀ p, p < I → Nat.Prime p → p ∣ n → ¬(p * p ≤ n)

theorem surv_two (n : Nat) : surv 2 n := by
  intro p hp hprime _
  exact absurd hprime.two_le (by omega)

theorem surv_of_prime {n : Nat} (hn : Nat.Prime n) (I : Nat) : surv I n := by
  intro p _ hp hdvd hsq
  rcases (Nat.Prime.eq_one_or_self_of_dvd hn p hdvd) with h1 | h1
  · exact absurd h1 hp.one_lt.ne'
  · subst h1
    have := hn.two_le
    nlinarith

theorem minFac_witness {n : Nat} (h2 : 2 ≤ n) (hn : ¬Nat.Prime n) :
    Nat.Prime n.minFac ∧ n.minFac ∣ n ∧ n.minFac * n.minFac ≤ n ∧ n.minFac < n := by
  have hne : n ≠ 1 := by omega
  have hq := Nat.minFac_prime hne
  have hdvd := Nat.minFac_dvd n
  have hsq : n.minFac * n.minFac ≤ n := by
    have := Nat.minFac_sq_le_self (by omega : 0 < n) hn
    rwa [pow_two] at this
  refine ⟨hq, hdvd, hsq, ?_⟩
  rcases Nat.lt_or_ge n.minFac n with h | h
  · exact h
  · have hle := Nat.le_of_dvd (by omega) hdvd
    have : n.minFac = n := le_antisymm hle h
    rw [this] at hsq
    nlinarith

theorem prime_of_surv {i : Nat} (h2 : 2 ≤ i) (hs : surv i i) : Nat.Prime i := by
  by_contra hn
  obtain ⟨hq, hdvd, hsq, hlt⟩ := minFac_witness h2 hn
  exact hs i.minFac hlt hq hdvd hsq

theorem surv_succ_iff (i n : Nat) :
    surv (i + 1) n ↔ surv i n ∧ (Nat.Prime i → i ∣ n → ¬(i * i ≤ n)) := by
  constructor
  · intro h
    exact ⟨fun p hp => h p (by omega), fun hp hd => h i (by omega) hp hd⟩
  · rintro ⟨h1, h2⟩ p hp hprime hdvd
    rcases Nat.lt_or_ge p i with h | h
    · exact h1 p h hprime hdvd
    · have : p = i := by omega
      subst this
      exact h2 hprime hdvd

theorem surv_iff_prime_of_exit {I limit n : Nat} (hexit : limit < I * I)
    (hn : n ≤ limit) (h2 : 2 ≤ n) : surv I n ↔ Nat.Prime n := by
  constructor
  · intro hs
    by_contra hnp
    obtain ⟨hq, hdvd, hsq, _⟩ := minFac_witness h2 hnp
    have hlt : n.minFac < I := by nlinarith
    exact hs n.minFac hlt hq hdvd hsq
  · intro hp
    exact surv_of_prime hp I

/-- Membership in the arithmetic progression `j, j + p, j + 2p, …` shifts by
one step: for `n ≠ j` it is the same as membership in the progression
starting at `j + p`. -/
theorem step_dvd_iff (p j n : Nat) (hne : n ≠ j) :
    (j ≤ n ∧ p ∣ (n - j)) ↔ (j + p ≤ n ∧ p ∣ (n - (j + p))) := by
  constructor
  · rintro ⟨hjn, hdvd⟩
    have hpos : 0 < n - j := by omega
    have hple := Nat.le_of_dvd hpos hdvd
    refine ⟨by omega, ?_⟩
    rw [← Nat.sub_sub]
    exact Nat.dvd_sub' hdvd (dvd_refl p)
  · rintro ⟨hjn, hdvd⟩
    refine ⟨by omega, ?_⟩
    have heq : n - j = (n - (j + p)) + p := by omega
    rw [heq]
    exact Nat.dvd_add hdvd (dvd_refl p)

theorem markMulAux_spec (limit p : Nat) (hp : 0 < p) :
    ∀ fuel j arr, limit < j + fuel → arr.length = limit + 1 →
      ∃ arr2, markMulAux limit p fuel j arr = some arr2 ∧
        arr2.length = limit + 1 ∧
        ∀ n, getB arr2 n = true ↔
          getB arr n = true ∧ ¬(j ≤ n ∧ n ≤ limit ∧ p ∣ (n - j)) := by
  intro fuel
  induction fuel with
  | zero =>
    intro j arr hfuel hlen
    have hj : ¬(j ≤ limit) := by omega
    refine ⟨arr, by simp [markMulAux, hj], hlen, fun n => ?_⟩
    constructor
    · intro h
      exact ⟨h, fun hc => by omega⟩
    · exact fun h => h.1
  | succ fuel ih =>
    intro j arr hfuel hlen
    by_cases hj : j ≤ limit
    · have hjlen : j < arr.length := by omega
      obtain ⟨arr2, heq, hlen2, hchar⟩ :=
        ih (j + p) (setB arr j false) (by omega) (by rw [length_setB]; exact hlen)
      refine ⟨arr2, ?_, hlen2, fun n => ?_⟩
      · simp only [markMulAux, if_pos hj, wrB_eq_some arr j false hjlen,
          Option.some_bind]
        exact heq
      · rw [hchar n]
        by_cases hn : n = j
        · subst hn
          rw [getB_setB_self arr n false hjlen]
          constructor
          · rintro ⟨hfalse, -⟩
            exact absurd hfalse (by simp)
          · rintro ⟨-, hnot⟩
            exact absurd ⟨Nat.le_refl n, hj, by simp⟩ hnot
        · rw [getB_setB_other arr n j false hn]
          have hstep := step_dvd_iff p j n hn
          constructor
          · rintro ⟨hg, hnot⟩
            refine ⟨hg, fun hc => hnot ⟨(hstep.mp ⟨hc.1, hc.2.2⟩).1, hc.2.1,
              (hstep.mp ⟨hc.1, hc.2.2⟩).2⟩⟩
          · rintro ⟨hg, hnot⟩
            refine ⟨hg, fun hc => hnot ⟨(hstep.mpr ⟨hc.1, hc.2.2⟩).1, hc.2.1,
              (hstep.mpr ⟨hc.1, hc.2.2⟩).2⟩⟩
    · refine ⟨arr, by simp [markMulAux, hj], hlen, fun n => ?_⟩
      constructor
      · intro h
        exact ⟨h, fun hc => by omega⟩
      · exact fun h => h.1

/-- The set marked by the inner loop starting at `i * i` is exactly the set
of multiples of `i` that are at least `i * i`. -/
theorem marked_from_sq_iff (i n limit : Nat) :
    (i * i ≤ n ∧ n ≤ limit ∧ i ∣ (n - i * i)) ↔
      (i ∣ n ∧ i * i ≤ n ∧ n ≤ limit) := by
  constructor
  · rintro ⟨hsq, hnl, hdvd⟩
    refine ⟨?_, hsq, hnl⟩
    have heq : n = (n - i * i) + i * i := by omega
    rw [heq]
    exact Nat.dvd_add hdvd (dvd_mul_right i i)
  · rintro ⟨hdvd, hsq, hnl⟩
    exact ⟨hsq, hnl, Nat.dvd_sub' hdvd (dvd_mul_right i i)⟩

theorem sieveLoopAux_spec (limit : Nat) :
    ∀ fuel i arr, 2 ≤ i → limit < i + fuel → arr.length = limit + 1 →
      (∀ n, n ≤ limit → (getB arr n = true ↔ 2 ≤ n ∧ surv i n)) →
      ∃ arr2, sieveLoopAux limit fuel i arr = some arr2 ∧
        arr2.length = limit + 1 ∧
        ∀ n, n ≤ limit → (getB arr2 n = true ↔ 2 ≤ n ∧ Nat.Prime n) := by
  intro fuel
  induction fuel with
  | zero =>
    intro i arr h2 hfuel hlen hinv
    have hii : i ≤ i * i := Nat.le_mul_of_pos_left i (by omega)
    have hguard : ¬(i * i ≤ limit) := by omega
    refine ⟨arr, by simp [sieveLoopAux, hguard], hlen, fun n hn => ?_⟩
    rw [hinv n hn]
    constructor
    · rintro ⟨hn2, hs⟩
      exact ⟨hn2, (surv_iff_prime_of_exit (by omega) hn hn2).mp hs⟩
    · rintro ⟨hn2, hp⟩
      exact ⟨hn2, surv_of_prime hp i⟩
  | succ fuel ih =>
    intro i arr h2 hfuel hlen hinv
    by_cases hguard : i * i ≤ limit
    · have hii : i ≤ i * i := Nat.le_mul_of_pos_left i (by omega)
      have hilen : i < arr.length := by omega
      by_cases hb : getB arr i = true
      · -- isPrime[i] is set: i survives all smaller primes, hence is prime
        have hiprime : Nat.Prime i :=
          prime_of_surv h2 ((hinv i (by omega)).mp hb).2
        obtain ⟨arrM, heqM, hlenM, hcharM⟩ :=
          markMulAux_spec limit i (by omega) (limit + 1) (i * i) arr
            (by omega) hlen
        have hinvM : ∀ n, n ≤ limit → (getB arrM n = true ↔ 2 ≤ n ∧ surv (i + 1) n) := by
          intro n hn
          rw [hcharM n, hinv n hn, surv_succ_iff]
          constructor
          · rintro ⟨⟨hn2, hs⟩, hnot⟩
            refine ⟨hn2, hs, fun _ hdvd hsq => hnot ?_⟩
            exact (marked_from_sq_iff i n limit).mpr ⟨hdvd, hsq, hn⟩
          · rintro ⟨hn2, hs, hnoti⟩
            refine ⟨⟨hn2, hs⟩, fun hc => ?_⟩
            obtain ⟨hdvd, hsq, -⟩ := (marked_from_sq_iff i n limit).mp hc
            exact hnoti hiprime hdvd hsq
        obtain ⟨arr2, heq2, hlen2, hchar2⟩ :=
          ih (i + 1) arrM (by omega) (by omega) hlenM hinvM
        refine ⟨arr2, ?_, hlen2, hchar2⟩
        simp only [sieveLoopAux, if_pos hguard, rdB_eq_some arr i hilen,
          Option.some_bind, hb, if_pos, heqM]
        exact heq2
      · -- isPrime[i] is clear: i is composite, nothing is marked
        have hinv2 : ∀ n, n ≤ limit → (getB arr n = true ↔ 2 ≤ n ∧ surv (i + 1) n) := by
          intro n hn
          rw [hinv n hn, surv_succ_iff]
          have hnp : ¬Nat.Prime i := by
            intro hp
            exact hb ((hinv i (by omega)).mpr ⟨h2, surv_of_prime hp i⟩)
          constructor
          · rintro ⟨hn2, hs⟩
            exact ⟨hn2, hs, fun hp => absurd hp hnp⟩
          · rintro ⟨hn2, hs, -⟩
            exact ⟨hn2, hs⟩
        obtain ⟨arr2, heq2, hlen2, hchar2⟩ :=
          ih (i + 1) arr (by omega) (by omega) hlen hinv2
        refine ⟨arr2, ?_, hlen2, hchar2⟩
        have hbf : getB arr i = false := by
          cases h : getB arr i
          · rfl
          · exact absurd h hb
        simp only [sieveLoopAux, if_pos hguard, rdB_eq_some arr i hilen,
          Option.some_bind, hbf, Bool.false_eq_true, if_neg, ite_false]
        exact heq2
    · have hii : i ≤ i * i := Nat.le_mul_of_pos_left i (by omega)
      refine ⟨arr, by simp [sieveLoopAux, hguard], hlen, fun n hn => ?_⟩
      rw [hinv n hn]
      constructor
      · rintro ⟨hn2, hs⟩
        exact ⟨hn2, (surv_iff_prime_of_exit (by omega) hn hn2).mp hs⟩
      · rintro ⟨hn2, hp⟩
        exact ⟨hn2, surv_of_prime hp i⟩

theorem collectAux_spec (limit : Nat) (arr : List Bool)
    (hlen : arr.length = limit + 1) :
    ∀ fuel i, limit < i + fuel →
      ∃ l, collectAux limit arr fuel i = some l ∧
        List.Sorted (· < ·) l ∧
        ∀ n, n ∈ l ↔ i ≤ n ∧ n ≤ limit ∧ getB arr n = true := by
  intro fuel
  induction fuel with
  | zero =>
    intro i hfuel
    have hi : ¬(i ≤ limit) := by omega
    refine ⟨[], by simp [collectAux, hi], List.sorted_nil, fun n => ?_⟩
    simp only [List.not_mem_nil, false_iff]
    omega
  | succ fuel ih =>
    intro i hfuel
    by_cases hi : i ≤ limit
    · have hilen : i < arr.length := by omega
      obtain ⟨rest, heq, hsort, hmem⟩ := ih (i + 1) (by omega)
      refine ⟨if getB arr i then i :: rest else rest, ?_, ?_, ?_⟩
      · simp only [collectAux, if_pos hi, rdB_eq_some arr i hilen,
          Option.some_bind, heq]
        rfl
      · by_cases hb : getB arr i = true
        · rw [if_pos hb]
          rw [List.sorted_cons]
          exact ⟨fun b hbmem => by have := (hmem b).mp hbmem; omega, hsort⟩
        · rw [if_neg hb]
          exact hsort
      · intro n
        by_cases hb : getB arr i = true
        · rw [if_pos hb]
          simp only [List.mem_cons, hmem n]
          constructor
          · rintro (rfl | ⟨h1, h2, h3⟩)
            · exact ⟨Nat.le_refl n, hi, hb⟩
            · exact ⟨by omega, h2, h3⟩
          · rintro ⟨h1, h2, h3⟩
            rcases Nat.eq_or_lt_of_le h1 with rfl | h
            · exact Or.inl rfl
            · exact Or.inr ⟨by omega, h2, h3⟩
        · rw [if_neg hb]
          rw [hmem n]
          constructor
          · rintro ⟨h1, h2, h3⟩
            exact ⟨by omega, h2, h3⟩
          · rintro ⟨h1, h2, h3⟩
            refine ⟨?_, h2, h3⟩
            rcases Nat.eq_or_lt_of_le h1 with rfl | h
            · exact absurd h3 hb
            · omega
    · refine ⟨[], by simp [collectAux, hi], List.sorted_nil, fun n => ?_⟩
      simp only [List.not_mem_nil, false_iff]
      omega

/-- Correctness of `simpleSieve`: for any `limit ≥ 1` (so that the initial
writes are in range) it returns the strictly increasing list of exactly the
primes up to `limit`. -/
theorem simpleSieve_correct (limit : Nat) (h : 1 ≤ limit) :
    ∃ l, simpleSieve limit = some l ∧ List.Sorted (· < ·) l ∧
      ∀ n, n ∈ l ↔ Nat.Prime n ∧ n ≤ limit := by
  have hlen0 : (List.replicate (limit + 1) true).length = limit + 1 := by
    simp
  have h1lt : 1 < (List.replicate (limit + 1) true).length := by omega
  set a1 := setB (List.replicate (limit + 1) true) 1 false with ha1
  have hlen1 : a1.length = limit + 1 := by rw [ha1, length_setB, hlen0]
  have h0lt : 0 < a1.length := by omega
  set a0 := setB a1 0 false with ha0
  have hlen2 : a0.length = limit + 1 := by rw [ha0, length_setB, hlen1]
  have hinv : ∀ n, n ≤ limit → (getB a0 n = true ↔ 2 ≤ n ∧ surv 2 n) := by
    intro n hn
    match n with
    | 0 =>
      rw [ha0, getB_setB_self a1 0 false h0lt]
      simp
    | 1 =>
      rw [ha0, getB_setB_other a1 1 0 false (by omega),
        ha1, getB_setB_self _ 1 false h1lt]
      simp
    | (m + 2) =>
      rw [ha0, getB_setB_other a1 (m + 2) 0 false (by omega),
        ha1, getB_setB_other _ (m + 2) 1 false (by omega),
        getB_replicate (limit + 1) (m + 2) true (by omega)]
      simpa using surv_two (m + 2)
  obtain ⟨arr2, heqS, hlenS, hcharS⟩ :=
    sieveLoopAux_spec limit (limit + 1) 2 a0 (by omega) (by omega) hlen2 hinv
  obtain ⟨l, heqC, hsort, hmem⟩ :=
    collectAux_spec limit arr2 hlenS (limit + 1) 2 (by omega)
  refine ⟨l, ?_, hsort, fun n => ?_⟩
  · simp only [simpleSieve,
      wrB_eq_some (List.replicate (limit + 1) true) 1 false h1lt,
      Option.bind_eq_bind, Option.some_bind,
      wrB_eq_some a1 0 false h0lt, ← ha1, ← ha0, heqS, heqC]
  · rw [hmem n]
    constructor
    · rintro ⟨h2, hl, hb⟩
      exact ⟨((hcharS n hl).mp hb).2, hl⟩
    · rintro ⟨hp, hl⟩
      exact ⟨hp.two_le, hl, (hcharS n hl).mpr ⟨hp.two_le, hp⟩⟩

/-! ## Correctness of the segment worker -/

theorem firstMul_ge (s p : Nat) (hp : 0 < p) : s ≤ firstMul s p := by
  have hdm := Nat.div_add_mod (s + p - 1) p
  have hr : (s + p - 1) % p < p := Nat.mod_lt _ hp
  rw [Nat.mul_comm p ((s + p - 1) / p)] at hdm
  refine le_trans ?_ (le_max_right (p * p) _)
  omega

theorem firstMul_sq_le (s p : Nat) : p * p ≤ firstMul s p :=
  le_max_left _ _

theorem firstMul_dvd (s p : Nat) : p ∣ firstMul s p := by
  rcases max_choice (p * p) (((s + p - 1) / p) * p) with h | h
  · rw [firstMul, h]
    exact dvd_mul_right p p
  · rw [firstMul, h]
    exact dvd_mul_left p _

theorem firstMul_le (s p n : Nat) (hp : 0 < p) (hdvd : p ∣ n) (hs : s ≤ n)
    (hsq : p * p ≤ n) : firstMul s p ≤ n := by
  rcases hdvd with ⟨k, hk⟩
  have hk2 : n = k * p := by rw [hk, Nat.mul_comm]
  have hdm := Nat.div_add_mod (s + p - 1) p
  have hr : (s + p - 1) % p < p := Nat.mod_lt _ hp
  rw [Nat.mul_comm p ((s + p - 1) / p)] at hdm
  refine max_le hsq ?_
  by_contra hlt
  push_neg at hlt
  have hkq : k + 1 ≤ (s + p - 1) / p := by
    by_contra hkq
    push_neg at hkq
    have := mul_le_mul_right' (show (s + p - 1) / p ≤ k by omega) p
    omega
  have hmul := mul_le_mul_right' hkq p
  rw [Nat.succ_mul] at hmul
  omega

/-- The set of positions the worker marks for base prime `p` in chunk
`[s, e]` — the arithmetic progression starting at `firstMul s p` with step
`p` — is exactly the set of multiples of `p` in the chunk that are at least
`p²`. -/
theorem markedSeg_iff (s e p n : Nat) (hp : 0 < p) (hs : s ≤ n) (he : n ≤ e) :
    (firstMul s p ≤ n ∧ n ≤ e ∧ p ∣ (n - firstMul s p)) ↔
      (p ∣ n ∧ p * p ≤ n) := by
  constructor
  · rintro ⟨hF, -, hdvd⟩
    refine ⟨?_, le_trans (firstMul_sq_le s p) hF⟩
    have heq : n = (n - firstMul s p) + firstMul s p := by omega
    rw [heq]
    exact Nat.dvd_add hdvd (firstMul_dvd s p)
  · rintro ⟨hdvd, hsq⟩
    exact ⟨firstMul_le s p n hp hdvd hs hsq, he,
      Nat.dvd_sub' hdvd (firstMul_dvd s p)⟩

theorem markSegAux_spec (s e p : Nat) (hp : 0 < p) :
    ∀ fuel j arr, e < j + fuel → s ≤ j → arr.length = e - s + 1 →
      ∃ arr2, markSegAux s e p fuel j arr = some arr2 ∧
        arr2.length = e - s + 1 ∧
        ∀ n, s ≤ n →
          (getB arr2 (n - s) = true ↔
            getB arr (n - s) = true ∧ ¬(j ≤ n ∧ n ≤ e ∧ p ∣ (n - j))) := by
  intro fuel
  induction fuel with
  | zero =>
    intro j arr hfuel hsj hlen
    have hj : ¬(j ≤ e) := by omega
    refine ⟨arr, by simp [markSegAux, hj], hlen, fun n hn => ?_⟩
    constructor
    · intro h
      exact ⟨h, fun hc => by omega⟩
    · exact fun h => h.1
  | succ fuel ih =>
    intro j arr hfuel hsj hlen
    by_cases hj : j ≤ e
    · have hjlen : j - s < arr.length := by omega
      obtain ⟨arr2, heq, hlen2, hchar⟩ :=
        ih (j + p) (setB arr (j - s) false) (by omega) (by omega)
          (by rw [length_setB]; exact hlen)
      refine ⟨arr2, ?_, hlen2, fun n hn => ?_⟩
      · simp only [markSegAux, if_pos hj, if_pos hsj,
          wrB_eq_some arr (j - s) false hjlen, Option.bind_eq_bind,
          Option.some_bind]
        exact heq
      · rw [hchar n hn]
        by_cases hne : n = j
        · subst hne
          rw [getB_setB_self arr (n - s) false hjlen]
          constructor
          · rintro ⟨hfalse, -⟩
            exact absurd hfalse (by simp)
          · rintro ⟨-, hnot⟩
            exact absurd ⟨Nat.le_refl n, hj, by simp⟩ hnot
        · have hidx : n - s ≠ j - s := by omega
          rw [getB_setB_other arr (n - s) (j - s) false hidx]
          have hstep := step_dvd_iff p j n hne
          constructor
          · rintro ⟨hg, hnot⟩
            refine ⟨hg, fun hc => hnot ⟨(hstep.mp ⟨hc.1, hc.2.2⟩).1, hc.2.1,
              (hstep.mp ⟨hc.1, hc.2.2⟩).2⟩⟩
          · rintro ⟨hg, hnot⟩
            refine ⟨hg, fun hc => hnot ⟨(hstep.mpr ⟨hc.1, hc.2.2⟩).1, hc.2.1,
              (hstep.mpr ⟨hc.1, hc.2.2⟩).2⟩⟩
    · refine ⟨arr, by simp [markSegAux, hj], hlen, fun n hn => ?_⟩
      constructor
      · intro h
        exact ⟨h, fun hc => by omega⟩
      · exact fun h => h.1

theorem markAllPrimes_spec (s e : Nat) :
    ∀ primes arr, (∀ p ∈ primes, 0 < p) → arr.length = e - s + 1 →
      ∃ arr2, markAllPrimes s e primes arr = some arr2 ∧
        arr2.length = e - s + 1 ∧
        ∀ n, s ≤ n → n ≤ e →
          (getB arr2 (n - s) = true ↔
            getB arr (n - s) = true ∧ ∀ p ∈ primes, ¬(p ∣ n ∧ p * p ≤ n)) := by
  intro primes
  induction primes with
  | nil =>
    intro arr _ hlen
    refine ⟨arr, rfl, hlen, fun n _ _ => ?_⟩
    simp
  | cons p ps ih =>
    intro arr hpos hlen
    have hp : 0 < p := hpos p (List.mem_cons_self p ps)
    obtain ⟨arrM, heqM, hlenM, hcharM⟩ :=
      markSegAux_spec s e p hp (e + 1) (firstMul s p) arr (by omega)
        (firstMul_ge s p hp) hlen
    obtain ⟨arr2, heq2, hlen2, hchar2⟩ :=
      ih arrM (fun q hq => hpos q (List.mem_cons_of_mem p hq)) hlenM
    refine ⟨arr2, ?_, hlen2, fun n hs1 he1 => ?_⟩
    · simp only [markAllPrimes, heqM, Option.bind_eq_bind, Option.some_bind]
      exact heq2
    · rw [hchar2 n hs1 he1, hcharM n hs1]
      have hmarked := markedSeg_iff s e p n hp hs1 he1
      constructor
      · rintro ⟨⟨hg, hnotp⟩, hps⟩
        refine ⟨hg, fun q hq => ?_⟩
        rcases List.mem_cons.mp hq with rfl | hq
        · exact fun hc => hnotp (hmarked.mpr hc)
        · exact hps q hq
      · rintro ⟨hg, hall⟩
        refine ⟨⟨hg, fun hc => hall p (List.mem_cons_self p ps) (hmarked.mp hc)⟩,
          fun q hq => hall q (List.mem_cons_of_mem p hq)⟩

theorem collectSegAux_spec (s e : Nat) (arr : List Bool)
    (hlen : arr.length = e - s + 1) :
    ∀ fuel i, e < i + fuel → s ≤ i →
      ∃ l, collectSegAux s e arr fuel i = some l ∧
        List.Sorted (· < ·) l ∧
        ∀ n, n ∈ l ↔ i ≤ n ∧ n ≤ e ∧ 1 < n ∧ getB arr (n - s) = true := by
  intro fuel
  induction fuel with
  | zero =>
    intro i hfuel hsi
    have hi : ¬(i ≤ e) := by omega
    refine ⟨[], by simp [collectSegAux, hi], List.sorted_nil, fun n => ?_⟩
    simp only [List.not_mem_nil, false_iff]
    omega
  | succ fuel ih =>
    intro i hfuel hsi
    by_cases hi : i ≤ e
    · have hilen : i - s < arr.length := by omega
      obtain ⟨rest, heq, hsort, hmem⟩ := ih (i + 1) (by omega) (by omega)
      have hkeep :
          (if 1 < i then rdB arr (i - s) else pure false) =
            some (if 1 < i then getB arr (i - s) else false) := by
        by_cases h1 : 1 < i
        · rw [if_pos h1, if_pos h1, rdB_eq_some arr (i - s) hilen]
        · rw [if_neg h1, if_neg h1]
          rfl
      refine ⟨if (if 1 < i then getB arr (i - s) else false) then i :: rest
        else rest, ?_, ?_, ?_⟩
      · by_cases h1 : 1 < i
        · simp only [collectSegAux, if_pos hi, if_pos h1,
            rdB_eq_some arr (i - s) hilen, Option.bind_eq_bind,
            Option.some_bind, heq]
          rfl
        · simp only [collectSegAux, if_pos hi, if_neg h1,
            Option.bind_eq_bind, Option.some_bind, heq]
          rfl
      · by_cases hb : (if 1 < i then getB arr (i - s) else false) = true
        · rw [if_pos hb, List.sorted_cons]
          exact ⟨fun b hbmem => by have := (hmem b).mp hbmem; omega, hsort⟩
        · rw [if_neg hb]
          exact hsort
      · intro n
        by_cases hb : (if 1 < i then getB arr (i - s) else false) = true
        · have h1i : 1 < i := by
            by_contra h1
            rw [if_neg h1] at hb
            exact absurd hb (by simp)
          rw [if_pos h1i] at hb
          rw [if_pos (by rw [if_pos h1i]; exact hb)]
          simp only [List.mem_cons, hmem n]
          constructor
          · rintro (rfl | ⟨h1, h2, h3, h4⟩)
            · exact ⟨Nat.le_refl n, hi, h1i, hb⟩
            · exact ⟨by omega, h2, h3, h4⟩
          · rintro ⟨h1, h2, h3, h4⟩
            rcases Nat.eq_or_lt_of_le h1 with rfl | h
            · exact Or.inl rfl
            · exact Or.inr ⟨by omega, h2, h3, h4⟩
        · rw [if_neg hb, hmem n]
          constructor
          · rintro ⟨h1, h2, h3, h4⟩
            exact ⟨by omega, h2, h3, h4⟩
          · rintro ⟨h1, h2, h3, h4⟩
            refine ⟨?_, h2, h3, h4⟩
            rcases Nat.eq_or_lt_of_le h1 with rfl | h
            · rw [if_pos h3] at hb
              exact absurd h4 hb
            · omega
    · refine ⟨[], by simp [collectSegAux, hi], List.sorted_nil, fun n => ?_⟩
      simp only [List.not_mem_nil, false_iff]
      omega

/-- Raw characterisation of a worker's output: the numbers of the chunk
that exceed 1 and are not a multiple `≥ p²` of any supplied base prime. -/
theorem sieveWorker_spec (s e : Nat) (primes : List Nat)
    (hpos : ∀ p ∈ primes, 0 < p) :
    ∃ l, sieveWorker s e primes = some l ∧
      List.Sorted (· < ·) l ∧
      ∀ n, n ∈ l ↔
        s ≤ n ∧ n ≤ e ∧ 1 < n ∧ ∀ p ∈ primes, ¬(p ∣ n ∧ p * p ≤ n) := by
  have hlen0 : (List.replicate (e - s + 1) true).length = e - s + 1 := by simp
  obtain ⟨arrM, heqM, hlenM, hcharM⟩ :=
    markAllPrimes_spec s e primes (List.replicate (e - s + 1) true) hpos hlen0
  obtain ⟨l, heqC, hsort, hmem⟩ :=
    collectSegAux_spec s e arrM hlenM (e + 1) s (by omega) (Nat.le_refl s)
  refine ⟨l, ?_, hsort, fun n => ?_⟩
  · simp only [sieveWorker, heqM, Option.bind_eq_bind, Option.some_bind, heqC]
  · rw [hmem n]
    constructor
    · rintro ⟨h1, h2, h3, h4⟩
      exact ⟨h1, h2, h3, ((hcharM n h1 h2).mp h4).2⟩
    · rintro ⟨h1, h2, h3, h4⟩
      refine ⟨h1, h2, h3, (hcharM n h1 h2).mpr ⟨?_, h4⟩⟩
      exact getB_replicate (e - s + 1) (n - s) true (by omega)

/-- Two strictly sorted lists with the same members are equal. -/
theorem sorted_eq_of_mem_iff {l1 l2 : List Nat} (h1 : List.Sorted (· < ·) l1)
    (h2 : List.Sorted (· < ·) l2) (h : ∀ n, n ∈ l1 ↔ n ∈ l2) : l1 = l2 :=
  List.eq_of_perm_of_sorted
    ((List.perm_ext_iff_of_nodup h1.nodup h2.nodup).mpr h) h1 h2

/-- The primes of the interval `[s, e]`, ascending: the reference value that
a chunk worker must produce. -/
def primesIn (s e : Nat) : List Nat :=
  (List.range' s (e + 1 - s)).filter (fun n => decide (Nat.Prime n))

theorem mem_primesIn (s e n : Nat) (hse : s ≤ e) :
    n ∈ primesIn s e ↔ s ≤ n ∧ n ≤ e ∧ Nat.Prime n := by
  rw [primesIn, List.mem_filter, List.mem_range'_1]
  constructor
  · rintro ⟨⟨h1, h2⟩, h3⟩
    exact ⟨h1, by omega, of_decide_eq_true h3⟩
  · rintro ⟨h1, h2, h3⟩
    exact ⟨⟨h1, by omega⟩, decide_eq_true h3⟩

theorem sorted_primesIn (s e : Nat) : List.Sorted (· < ·) (primesIn s e) :=
  List.Pairwise.filter _ (List.pairwise_lt_range' s (e + 1 - s))

/-- A worker given base primes that are genuinely prime and cover every
prime up to `√e` returns exactly the primes of its chunk, in ascending
order. -/
theorem sieveWorker_primes (e cs ce : Nat) (bp : List Nat) (h1 : 1 ≤ cs)
    (hce : ce ≤ e) (hcs : cs ≤ ce)
    (hbp : ∀ p ∈ bp, Nat.Prime p)
    (hcov : ∀ q, Nat.Prime q → q * q ≤ e → q ∈ bp) :
    sieveWorker cs ce bp = some (primesIn cs ce) := by
  obtain ⟨l, heq, hsort, hmem⟩ :=
    sieveWorker_spec cs ce bp (fun p hp => (hbp p hp).pos)
  rw [heq]
  congr 1
  refine sorted_eq_of_mem_iff hsort (sorted_primesIn cs ce) (fun n => ?_)
  rw [hmem n, mem_primesIn cs ce n hcs]
  constructor
  · rintro ⟨hn1, hn2, hn3, hall⟩
    refine ⟨hn1, hn2, ?_⟩
    by_contra hnp
    obtain ⟨hq, hdvd, hsq, -⟩ := minFac_witness (by omega) hnp
    exact hall n.minFac (hcov n.minFac hq (by omega)) ⟨hdvd, hsq⟩
  · rintro ⟨hn1, hn2, hp⟩
    refine ⟨hn1, hn2, hp.one_lt, fun p hpmem ⟨hdvd, hsq⟩ => ?_⟩
    rcases (hp.eq_one_or_self_of_dvd p hdvd) with rfl | rfl
    · exact absurd (hbp 1 hpmem) Nat.not_prime_one
    · have := hp.two_le
      nlinarith

/-! ## Correctness of the range partitioner -/

theorem chunkSize_pos (s e t : Nat) (ht : 1 ≤ t) :
    1 ≤ chunkSize s e t := by
  rw [chunkSize, Nat.one_le_div_iff (by omega)]
  omega

/-- Dispatching `t` chunks of size `chunkSize` covers the whole range:
`rangeSize ≤ t * chunkSize`. -/
theorem chunkSize_mul_ge (s e t : Nat) (ht : 1 ≤ t) (hse : s ≤ e) :
    e - s + 1 ≤ t * chunkSize s e t := by
  have hdm := Nat.div_add_mod ((e - s + 1) + t - 1) t
  have hr : ((e - s + 1) + t - 1) % t < t := Nat.mod_lt _ (by omega)
  rw [chunkSize]
  omega

/-- Once a chunk start passes the range end, no chunks at all are
dispatched (the `break` in the dispatch loop). -/
theorem chunkLoop_nil (s e cs i t : Nat) (h : e < s + i * cs) :
    chunkLoop s e cs i t = [] := by
  cases t with
  | zero => rfl
  | succ t => rw [chunkLoop, if_neg (by omega)]

/-- The concatenation of the dispatched chunk intervals is exactly the
remaining range — chunks cover the range contiguously, without gaps,
overlaps or duplications. -/
theorem chunkLoop_cover (s e cs : Nat) (hcs : 0 < cs) :
    ∀ t i, e < s + (i + t) * cs →
      (chunkLoop s e cs i t).flatMap
          (fun c => List.range' c.1 (c.2 + 1 - c.1)) =
        List.range' (s + i * cs) (e + 1 - (s + i * cs)) := by
  intro t
  induction t with
  | zero =>
    intro i hend
    rw [chunkLoop]
    have h0 : e + 1 - (s + i * cs) = 0 := by
      have : i + 0 = i := by omega
      rw [this] at hend
      omega
    rw [h0]
    rfl
  | succ t ih =>
    intro i hend
    by_cases hst : s + i * cs ≤ e
    · have hih : e < s + (i + 1 + t) * cs := by
        have heq : i + 1 + t = i + (t + 1) := by omega
        rw [heq]
        exact hend
      have hB : (i + 1) * cs = i * cs + cs := Nat.succ_mul i cs
      simp only [chunkLoop, if_pos hst, List.flatMap_cons, ih (i + 1) hih]
      by_cases hmin : s + i * cs + cs - 1 ≤ e
      · rw [min_eq_right hmin]
        have hlen1 : s + i * cs + cs - 1 + 1 - (s + i * cs) = cs := by omega
        rw [hlen1]
        have harg : s + (i + 1) * cs = s + i * cs + cs := by omega
        have hap := List.range'_append (s + i * cs) cs
          (e + 1 - (s + i * cs + cs)) 1
        rw [one_mul] at hap
        rw [harg, hap]
        congr 1
        omega
      · rw [min_eq_left (by omega)]
        have hrest : e + 1 - (s + (i + 1) * cs) = 0 := by omega
        rw [hrest]
        simp
    · rw [chunkLoop, if_neg hst]
      have h0 : e + 1 - (s + i * cs) = 0 := by omega
      rw [h0]
      rfl

/-- Every dispatched chunk lies inside the range and is non-degenerate. -/
theorem chunkLoop_bounds (s e cs : Nat) (hcs : 0 < cs) :
    ∀ t i c, c ∈ chunkLoop s e cs i t →
      s ≤ c.1 ∧ c.1 ≤ e ∧ c.1 ≤ c.2 ∧ c.2 ≤ e := by
  intro t
  induction t with
  | zero =>
    intro i c hc
    simp [chunkLoop] at hc
  | succ t ih =>
    intro i c hc
    by_cases hst : s + i * cs ≤ e
    · rw [chunkLoop, if_pos hst] at hc
      rcases List.mem_cons.mp hc with rfl | hc
      · refine ⟨by omega, hst, le_min hst (by omega), min_le_left e _⟩
      · exact ih (i + 1) c hc
    · rw [chunkLoop, if_neg hst] at hc
      simp at hc

/-- The last dispatched chunk ends exactly at the range end. -/
theorem chunkLoop_last (s e cs : Nat) (hcs : 0 < cs) :
    ∀ t i, s + i * cs ≤ e → e < s + (i + t) * cs →
      ∃ c, (chunkLoop s e cs i t).getLast? = some c ∧ c.2 = e := by
  intro t
  induction t with
  | zero =>
    intro i hst hend
    have : i + 0 = i := by omega
    rw [this] at hend
    omega
  | succ t ih =>
    intro i hst hend
    rw [chunkLoop, if_pos hst]
    by_cases hnext : s + (i + 1) * cs ≤ e
    · obtain ⟨c, hlast, hc2⟩ := ih (i + 1) hnext
        (by have heq : i + 1 + t = i + (t + 1) := by omega
            rw [heq]; exact hend)
      refine ⟨c, ?_, hc2⟩
      cases hrest : chunkLoop s e cs (i + 1) t with
      | nil => rw [hrest] at hlast; simp at hlast
      | cons r rs =>
        rw [hrest] at hlast
        rw [List.getLast?_cons_cons]
        exact hlast
    · have hrest : chunkLoop s e cs (i + 1) t = [] :=
        chunkLoop_nil s e cs (i + 1) t (by omega)
      rw [hrest]
      refine ⟨(s + i * cs, min e (s + i * cs + cs - 1)), rfl, ?_⟩
      have hB : (i + 1) * cs = i * cs + cs := Nat.succ_mul i cs
      exact min_eq_left (by omega)

/-- Consecutive dispatched chunks are contiguous: each chunk starts one
past the previous chunk's end. -/
theorem chunkLoop_chain (s e cs : Nat) (hcs : 0 < cs) :
    ∀ t i, List.Chain' (fun a b : Nat × Nat => b.1 = a.2 + 1)
      (chunkLoop s e cs i t) := by
  intro t
  induction t with
  | zero =>
    intro i
    rw [chunkLoop]
    exact List.chain'_nil
  | succ t ih =>
    intro i
    by_cases hst : s + i * cs ≤ e
    · rw [chunkLoop, if_pos hst]
      rw [List.chain'_cons']
      refine ⟨?_, ih (i + 1)⟩
      intro y hy
      cases t with
      | zero => simp [chunkLoop] at hy
      | succ t2 =>
        by_cases hnext : s + (i + 1) * cs ≤ e
        · rw [chunkLoop, if_pos hnext] at hy
          simp only [List.head?_cons, Option.mem_def, Option.some_inj] at hy
          subst hy
          have hB : (i + 1) * cs = i * cs + cs := Nat.succ_mul i cs
          have hmin : s + i * cs + cs - 1 ≤ e := by omega
          simp only [min_eq_right hmin]
          omega
        · rw [chunkLoop, if_neg hnext] at hy
          simp at hy
    · rw [chunkLoop, if_neg hst]
      exact List.chain'_nil

/-! ## Coordinator: merged output of all workers -/

theorem runWorkers_spec (e : Nat) (bp : List Nat)
    (hbp : ∀ p ∈ bp, Nat.Prime p)
    (hcov : ∀ q, Nat.Prime q → q * q ≤ e → q ∈ bp) :
    ∀ chunks : List (Nat × Nat),
      (∀ c ∈ chunks, 1 ≤ c.1 ∧ c.1 ≤ c.2 ∧ c.2 ≤ e) →
      runWorkers bp chunks =
        some (chunks.map (fun c => primesIn c.1 c.2)) := by
  intro chunks
  induction chunks with
  | nil => intro _; rfl
  | cons c cs ih =>
    intro h
    obtain ⟨hc1, hc2, hc3⟩ := h c (List.mem_cons_self c cs)
    rw [runWorkers, sieveWorker_primes e c.1 c.2 bp hc1 hc3 hc2 hbp hcov]
    rw [ih (fun d hd => h d (List.mem_cons_of_mem c hd))]
    rfl

theorem filter_flatMap {α : Type} (p : Nat → Bool) (f : α → List Nat) :
    ∀ L : List α, (L.flatMap f).filter p = L.flatMap (fun x => (f x).filter p) := by
  intro L
  induction L with
  | nil => rfl
  | cons x xs ih =>
    rw [List.flatMap_cons, List.flatMap_cons, List.filter_append, ih]

/-- The key global lemma: for any valid range, thread count and adequate
base-prime list, the coordinator dispatches workers whose merged output (in
dispatch order) is exactly the ascending list of primes of `[s, e]`. -/
theorem merged_eq_primesIn (s e t : Nat) (bp : List Nat) (hs : 1 ≤ s)
    (hse : s ≤ e) (ht : 1 ≤ t)
    (hbp : ∀ p ∈ bp, Nat.Prime p)
    (hcov : ∀ q, Nat.Prime q → q * q ≤ e → q ∈ bp) :
    runWorkers bp (chunkList s e t) =
        some ((chunkList s e t).map (fun c => primesIn c.1 c.2)) ∧
      ((chunkList s e t).map (fun c => primesIn c.1 c.2)).flatMap id =
        primesIn s e := by
  have hcs : 0 < chunkSize s e t := chunkSize_pos s e t ht
  have hmul := chunkSize_mul_ge s e t ht hse
  have hbounds := chunkLoop_bounds s e (chunkSize s e t) hcs t 0
  constructor
  · exact runWorkers_spec e bp hbp hcov (chunkList s e t)
      (fun c hc => by
        obtain ⟨h1, h2, h3, h4⟩ := hbounds c hc
        exact ⟨by omega, h3, h4⟩)
  · have hcover := chunkLoop_cover s e (chunkSize s e t) hcs t 0
      (by simpa using by omega : e < s + (0 + t) * chunkSize s e t)
    rw [List.flatMap_map]
    simp only [id]
    have hstep : (chunkList s e t).flatMap (fun c => primesIn c.1 c.2) =
        ((chunkList s e t).flatMap
          (fun c => List.range' c.1 (c.2 + 1 - c.1))).filter
            (fun n => decide (Nat.Prime n)) := by
      rw [filter_flatMap]
      rfl
    rw [hstep]
    have hcover2 : ((chunkList s e t).flatMap
          fun c => List.range' c.1 (c.2 + 1 - c.1)) =
        List.range' (s + 0 * chunkSize s e t)
          (e + 1 - (s + 0 * chunkSize s e t)) := hcover
    rw [hcover2]
    simp only [Nat.zero_mul, Nat.add_zero]
    rfl

/-! ## Aggregator lemmas -/

theorem sortNat_sorted (l : List Nat) : List.Sorted (· ≤ ·) (sortNat l) :=
  List.sorted_insertionSort _ l

theorem sortNat_perm (l : List Nat) : (sortNat l).Perm l :=
  List.perm_insertionSort _ l

/-- The sorted output is determined by the multiset of inputs: any two
permutation-equal result collections sort to the same list. -/
theorem sortNat_eq_of_perm {l1 l2 : List Nat} (h : l1.Perm l2) :
    sortNat l1 = sortNat l2 :=
  List.eq_of_perm_of_sorted
    ((sortNat_perm l1).trans (h.trans (sortNat_perm l2).symm))
    (sortNat_sorted l1) (sortNat_sorted l2)

theorem sortNat_eq_self {l : List Nat} (h : List.Sorted (· ≤ ·) l) :
    sortNat l = l :=
  List.eq_of_perm_of_sorted (sortNat_perm l) (sortNat_sorted l) h

theorem sorted_le_of_sorted_lt {l : List Nat} (h : List.Sorted (· < ·) l) :
    List.Sorted (· ≤ ·) l :=
  h.imp (fun hab => Nat.le_of_lt hab)

theorem foldl_add_eq_sum (l : List Nat) : ∀ a : Nat, l.foldl (· + ·) a = a + l.sum := by
  induction l with
  | nil => intro a; simp
  | cons x xs ih =>
    intro a
    rw [List.foldl_cons, ih (a + x), List.sum_cons]
    omega

theorem summarize_eq_of_perm {l1 l2 : List Nat} (h : l1.Perm l2) :
    summarize l1 = summarize l2 := by
  simp only [summarize, sortNat_eq_of_perm h]

theorem flatMap_id_perm {os bs : List (List Nat)} (h : os.Perm bs) :
    (os.flatMap id).Perm (bs.flatMap id) := by
  rw [List.flatMap_id, List.flatMap_id]
  exact h.flatten

/-! ## The claims -/

/-- C1: for every range `[s, e]` with `1 ≤ s ≤ e` and every worker count
`W ≥ 1`, the union of the outputs of all dispatched segment workers — the
merged, then sorted, result collection — equals the set of primes in
`[s, e]`, with no duplicate (the sorted merge is strictly increasing) and
no omission, provided the base-prime sequence consists of primes and
contains every prime `≤ ⌊√e⌋`. -/
theorem claim_C1 (s e W : Nat) (bp : List Nat) (hs : 1 ≤ s) (hse : s ≤ e)
    (hW : 1 ≤ W) (hbp : ∀ p ∈ bp, Nat.Prime p)
    (hcov : ∀ q, Nat.Prime q → q ≤ Nat.sqrt e → q ∈ bp) :
    ∃ blocks, runWorkers bp (chunkList s e W) = some blocks ∧
      List.Sorted (· < ·) (sortNat (blocks.flatMap id)) ∧
      ∀ n, n ∈ sortNat (blocks.flatMap id) ↔ Nat.Prime n ∧ s ≤ n ∧ n ≤ e := by
  have hcov2 : ∀ q, Nat.Prime q → q * q ≤ e → q ∈ bp :=
    fun q hq hsq => hcov q hq (Nat.le_sqrt.mpr hsq)
  obtain ⟨hrun, hflat⟩ := merged_eq_primesIn s e W bp hs hse hW hbp hcov2
  have hself : sortNat (primesIn s e) = primesIn s e :=
    sortNat_eq_self (sorted_le_of_sorted_lt (sorted_primesIn s e))
  refine ⟨_, hrun, ?_, ?_⟩
  · rw [hflat, hself]
    exact sorted_primesIn s e
  · intro n
    rw [hflat, hself, mem_primesIn s e n hse]
    tauto

theorem claim_C1_witness :
    (1 ≤ 1 ∧ 1 ≤ 30 ∧ 1 ≤ 4) ∧
    (∃ blocks, runWorkers [2, 3, 5] (chunkList 1 30 4) = some blocks ∧
      List.Sorted (· < ·) (sortNat (blocks.flatMap id)) ∧
      ∀ n, n ∈ sortNat (blocks.flatMap id) ↔ Nat.Prime n ∧ 1 ≤ n ∧ n ≤ 30) :=
  ⟨⟨le_refl 1, by norm_num, by norm_num⟩,
    claim_C1 1 30 4 [2, 3, 5] (le_refl 1) (by norm_num) (by norm_num)
      (by decide)
      (fun q hq hle => by
        rw [show Nat.sqrt 30 = 5 from by norm_num] at hle
        interval_cases q <;> revert hq <;> decide)⟩

/-- C2: for every limit `L ≥ 2` the base sieve returns exactly the primes
up to `L`, strictly ascending (hence without duplicates). -/
theorem claim_C2 (L : Nat) (hL : 2 ≤ L) :
    ∃ l, simpleSieve L = some l ∧ List.Sorted (· < ·) l ∧
      ∀ n, n ∈ l ↔ Nat.Prime n ∧ n ≤ L :=
  simpleSieve_correct L (by omega)

theorem claim_C2_witness :
    2 ≤ 10 ∧ ∃ l, simpleSieve 10 = some l ∧ List.Sorted (· < ·) l ∧
      ∀ n, n ∈ l ↔ Nat.Prime n ∧ n ≤ 10 :=
  ⟨by norm_num, claim_C2 10 (by norm_num)⟩

/-- C3: in the segment worker, for every base prime `p` and chunk
`[s, e]` with `s ≥ 1`, the positions marked composite for `p` are exactly
`max(p², ⌈s / p⌉·p)` and its successive `+p` steps up to `e`; consequently
no prime in the chunk (base primes included) is ever marked, and every
composite in the chunk with a prime factor among the base primes is marked.
The base primes are the output of `simpleSieve` in the program: a list of
primes that is downward closed among the primes, which the last part
needs. -/
theorem claim_C3 (s e : Nat) (bp : List Nat) (hs : 1 ≤ s)
    (hbp : ∀ p ∈ bp, Nat.Prime p)
    (hdc : ∀ q p, p ∈ bp → Nat.Prime q → q ≤ p → q ∈ bp) :
    (∀ p n, Nat.Prime p → s ≤ n → n ≤ e →
      ∃ arrp, markSegAux s e p (e + 1) (firstMul s p)
          (List.replicate (e - s + 1) true) = some arrp ∧
        (getB arrp (n - s) = false ↔
          firstMul s p ≤ n ∧ p ∣ (n - firstMul s p))) ∧
    ∃ arr2, markAllPrimes s e bp (List.replicate (e - s + 1) true) = some arr2 ∧
      (∀ n, s ≤ n → n ≤ e → Nat.Prime n → getB arr2 (n - s) = true) ∧
      (∀ n, s ≤ n → n ≤ e → 2 ≤ n → ¬Nat.Prime n → (∃ p ∈ bp, p ∣ n) →
        getB arr2 (n - s) = false) := by
  constructor
  · intro p n hp hsn hne
    obtain ⟨arrp, heq, hlen, hchar⟩ :=
      markSegAux_spec s e p hp.pos (e + 1) (firstMul s p)
        (List.replicate (e - s + 1) true) (by omega)
        (firstMul_ge s p hp.pos) (by simp)
    refine ⟨arrp, heq, ?_⟩
    have hb : getB arrp (n - s) = false ↔ ¬(getB arrp (n - s) = true) := by
      cases getB arrp (n - s) <;> simp
    rw [hb, hchar n hsn,
      getB_replicate (e - s + 1) (n - s) true (by omega)]
    simp only [true_and, not_not]
    constructor
    · rintro ⟨h1, -, h3⟩
      exact ⟨h1, h3⟩
    · rintro ⟨h1, h3⟩
      exact ⟨h1, hne, h3⟩
  · obtain ⟨arr2, heq, hlen, hchar⟩ :=
      markAllPrimes_spec s e bp (List.replicate (e - s + 1) true)
        (fun p hp => (hbp p hp).pos) (by simp)
    refine ⟨arr2, heq, ?_, ?_⟩
    · intro n hsn hne hp
      rw [hchar n hsn hne]
      refine ⟨getB_replicate (e - s + 1) (n - s) true (by omega),
        fun q hq hc => ?_⟩
      rcases hp.eq_one_or_self_of_dvd q hc.1 with rfl | rfl
      · exact absurd (hbp 1 hq) Nat.not_prime_one
      · have h2 := hp.two_le
        have := hc.2
        nlinarith
    · rintro n hsn hne h2 hnp ⟨p0, hp0mem, hp0dvd⟩
      obtain ⟨hqp, hqdvd, hqsq, -⟩ := minFac_witness h2 hnp
      have hp0 := hbp p0 hp0mem
      have hqmem : n.minFac ∈ bp :=
        hdc n.minFac p0 hp0mem hqp (Nat.minFac_le_of_dvd hp0.two_le hp0dvd)
      have hb : getB arr2 (n - s) = false ↔ ¬(getB arr2 (n - s) = true) := by
        cases getB arr2 (n - s) <;> simp
      rw [hb, hchar n hsn hne]
      rintro ⟨-, hall⟩
      exact hall n.minFac hqmem ⟨hqdvd, hqsq⟩

theorem claim_C3_witness :
    1 ≤ 10 ∧
    ((∀ p n, Nat.Prime p → 10 ≤ n → n ≤ 30 →
      ∃ arrp, markSegAux 10 30 p (30 + 1) (firstMul 10 p)
          (List.replicate (30 - 10 + 1) true) = some arrp ∧
        (getB arrp (n - 10) = false ↔
          firstMul 10 p ≤ n ∧ p ∣ (n - firstMul 10 p))) ∧
    ∃ arr2,
      markAllPrimes 10 30 [2, 3, 5] (List.replicate (30 - 10 + 1) true) =
          some arr2 ∧
      (∀ n, 10 ≤ n → n ≤ 30 → Nat.Prime n → getB arr2 (n - 10) = true) ∧
      (∀ n, 10 ≤ n → n ≤ 30 → 2 ≤ n → ¬Nat.Prime n →
        (∃ p ∈ [2, 3, 5], p ∣ n) → getB arr2 (n - 10) = false)) :=
  ⟨by norm_num,
    claim_C3 10 30 [2, 3, 5] (by norm_num) (by decide)
      (fun q p hp hq hle => by
        have hp5 : p ≤ 5 := by
          have h3 : p = 2 ∨ p = 3 ∨ p = 5 := by simpa using hp
          omega
        have hq5 : q ≤ 5 := le_trans hle hp5
        interval_cases q <;> revert hq <;> decide)⟩

/-- C4: for every range `[s, e]` (with `s ≤ e`) and worker count `W ≥ 1`,
the dispatched chunks form a disjoint contiguous cover of `[s, e]`: every
chunk lies inside the range (no chunk starts beyond `e`), their
concatenated intervals are exactly `[s, e]` (no gap, no overlap), the last
dispatched chunk ends exactly at `e`, and each chunk starts one past its
predecessor's end. -/
theorem claim_C4 (s e W : Nat) (hse : s ≤ e) (hW : 1 ≤ W) :
    (∀ c ∈ chunkList s e W, c.1 ≤ e ∧ c.1 ≤ c.2 ∧ c.2 ≤ e) ∧
    ((chunkList s e W).flatMap (fun c => List.range' c.1 (c.2 + 1 - c.1)) =
      List.range' s (e + 1 - s)) ∧
    (∃ c, (chunkList s e W).getLast? = some c ∧ c.2 = e) ∧
    List.Chain' (fun a b : Nat × Nat => b.1 = a.2 + 1) (chunkList s e W) := by
  have hcs : 0 < chunkSize s e W := chunkSize_pos s e W hW
  have hmul := chunkSize_mul_ge s e W hW hse
  have hend : e < s + (0 + W) * chunkSize s e W := by
    have h0 : 0 + W = W := by omega
    rw [h0]
    omega
  refine ⟨?_, ?_, ?_, chunkLoop_chain s e _ hcs W 0⟩
  · intro c hc
    obtain ⟨-, h2, h3, h4⟩ := chunkLoop_bounds s e _ hcs W 0 c hc
    exact ⟨h2, h3, h4⟩
  · have h := chunkLoop_cover s e _ hcs W 0 hend
    have h2 : ((chunkList s e W).flatMap
          fun c => List.range' c.1 (c.2 + 1 - c.1)) =
        List.range' (s + 0 * chunkSize s e W)
          (e + 1 - (s + 0 * chunkSize s e W)) := h
    simpa using h2
  · have h := chunkLoop_last s e _ hcs W 0 (by simpa using hse) hend
    exact h

theorem claim_C4_witness :
    (1 ≤ 30 ∧ 1 ≤ 8) ∧
    ((∀ c ∈ chunkList 1 30 8, c.1 ≤ 30 ∧ c.1 ≤ c.2 ∧ c.2 ≤ 30) ∧
    ((chunkList 1 30 8).flatMap (fun c => List.range' c.1 (c.2 + 1 - c.1)) =
      List.range' 1 (30 + 1 - 1)) ∧
    (∃ c, (chunkList 1 30 8).getLast? = some c ∧ c.2 = 30) ∧
    List.Chain' (fun a b : Nat × Nat => b.1 = a.2 + 1) (chunkList 1 30 8)) :=
  ⟨⟨by norm_num, by norm_num⟩, claim_C4 1 30 8 (by norm_num) (by norm_num)⟩

/-- C5: the observable pipeline output is deterministic.  For one fixed
range, any two worker counts `W1, W2 ≥ 1`, and any scheduling of the
workers' mutex-guarded appends (modelled as arbitrary permutations `os1`,
`os2` of the respective block lists), the sorted prime list and the summary
(count, sum, top ten) coincide; `W1 = W2` is the idempotence case of
running the pipeline twice. -/
theorem claim_C5 (s e W1 W2 : Nat) (bp : List Nat)
    (bs1 bs2 os1 os2 : List (List Nat))
    (hs : 1 ≤ s) (hse : s ≤ e) (hW1 : 1 ≤ W1) (hW2 : 1 ≤ W2)
    (hbp : simpleSieve (Nat.sqrt e) = some bp)
    (h1 : runWorkers bp (chunkList s e W1) = some bs1)
    (h2 : runWorkers bp (chunkList s e W2) = some bs2)
    (hp1 : os1.Perm bs1) (hp2 : os2.Perm bs2) :
    sortNat (os1.flatMap id) = sortNat (os2.flatMap id) ∧
    summarize (os1.flatMap id) = summarize (os2.flatMap id) := by
  have hsq1 : 1 ≤ Nat.sqrt e := Nat.le_sqrt.mpr (by omega)
  obtain ⟨l, hleq, hlsort, hlmem⟩ := simpleSieve_correct (Nat.sqrt e) hsq1
  rw [hbp] at hleq
  have hbpl : bp = l := Option.some.inj hleq
  subst hbpl
  have hbpPrime : ∀ p ∈ bp, Nat.Prime p := fun p hp => ((hlmem p).mp hp).1
  have hbpCov : ∀ q, Nat.Prime q → q * q ≤ e → q ∈ bp :=
    fun q hq hsq => (hlmem q).mpr ⟨hq, Nat.le_sqrt.mpr hsq⟩
  obtain ⟨hrun1, hflat1⟩ := merged_eq_primesIn s e W1 bp hs hse hW1 hbpPrime hbpCov
  obtain ⟨hrun2, hflat2⟩ := merged_eq_primesIn s e W2 bp hs hse hW2 hbpPrime hbpCov
  rw [hrun1] at h1
  rw [hrun2] at h2
  have hbs1 : bs1.flatMap id = primesIn s e := by
    have hb : bs1 = (chunkList s e W1).map (fun c => primesIn c.1 c.2) :=
      (Option.some.inj h1).symm
    rw [hb, hflat1]
  have hbs2 : bs2.flatMap id = primesIn s e := by
    have hb : bs2 = (chunkList s e W2).map (fun c => primesIn c.1 c.2) :=
      (Option.some.inj h2).symm
    rw [hb, hflat2]
  have hperm : (os1.flatMap id).Perm (os2.flatMap id) := by
    have ha := flatMap_id_perm hp1
    rw [hbs1] at ha
    have hb := flatMap_id_perm hp2
    rw [hbs2] at hb
    exact ha.trans hb.symm
  exact ⟨sortNat_eq_of_perm hperm, summarize_eq_of_perm hperm⟩

theorem claim_C5_witness :
    ([[11, 13], [29], [2, 3, 5, 7], [17, 19, 23]] : List (List Nat)).Perm
        [[2, 3, 5, 7], [11, 13], [17, 19, 23], [29]] ∧
    sortNat (([[11, 13], [29], [2, 3, 5, 7], [17, 19, 23]] :
          List (List Nat)).flatMap id) =
      sortNat (([[29], [], [2, 3], [17, 19], [5, 7], [13], [11], [23]] :
          List (List Nat)).flatMap id) ∧
    summarize (([[11, 13], [29], [2, 3, 5, 7], [17, 19, 23]] :
          List (List Nat)).flatMap id) =
      summarize (([[29], [], [2, 3], [17, 19], [5, 7], [13], [11], [23]] :
          List (List Nat)).flatMap id) := by
  refine ⟨by decide, ?_⟩
  exact claim_C5 1 30 4 8 [2, 3, 5]
    [[2, 3, 5, 7], [11, 13], [17, 19, 23], [29]]
    [[2, 3], [5, 7], [11], [13], [17, 19], [23], [], [29]]
    [[11, 13], [29], [2, 3, 5, 7], [17, 19, 23]]
    [[29], [], [2, 3], [17, 19], [5, 7], [13], [11], [23]]
    (by norm_num) (by norm_num) (by norm_num) (by norm_num)
    (by have h : Nat.sqrt 30 = 5 := by norm_num
        simp only [h]
        rfl)
    (by rfl) (by rfl) (by decide) (by decide)

/-- C6: the aggregator applied to any result sequence computes count equal
to the sequence length, sum equal to the exact arithmetic sum (the model
uses unbounded naturals, matching the 64-bit `long long` accumulator for
every range magnitude exercised by the program), and top ten equal to the
last ten elements of the ascending-sorted sequence (all elements when the
count is below ten); an empty sequence yields count 0, sum 0 and empty top
ten. -/
theorem claim_C6 (r : List Nat) :
    (summarize r).count = r.length ∧
    (summarize r).sum = r.sum ∧
    (∀ l, List.Sorted (· ≤ ·) l → r.Perm l →
      (summarize r).topTen = l.drop (r.length - 10) ∧
      (r.length < 10 → (summarize r).topTen = l)) ∧
    summarize [] = ⟨0, 0, []⟩ := by
  have hlen : (sortNat r).length = r.length := (sortNat_perm r).length_eq
  refine ⟨?_, ?_, ?_, rfl⟩
  · simp only [summarize]
    exact hlen
  · simp only [summarize]
    rw [foldl_add_eq_sum, Nat.zero_add]
    exact (sortNat_perm r).sum_eq
  · intro l hsl hperm
    have hl : sortNat r = l :=
      List.eq_of_perm_of_sorted ((sortNat_perm r).trans hperm)
        (sortNat_sorted r) hsl
    constructor
    · simp only [summarize]
      rw [hl, hperm.length_eq]
    · intro hsmall
      simp only [summarize]
      rw [hl]
      have h0 : l.length - 10 = 0 := by
        have := hperm.length_eq
        omega
      rw [h0, List.drop_zero]

theorem claim_C6_witness :
    (summarize [30, 2, 7]).count = 3 ∧ (summarize [30, 2, 7]).sum = 39 ∧
    (summarize [30, 2, 7]).topTen = [2, 7, 30] := by
  obtain ⟨h1, h2, h3, -⟩ := claim_C6 [30, 2, 7]
  refine ⟨h1, by simpa using h2, ?_⟩
  have h4 := (h3 [2, 7, 30] (by decide) (by decide)).1
  simpa using h4

/-- C7: for every chunk with `chunkStart ≤ 1`, the worker's output excludes
the values 0 and 1 even though the local boolean mapping never marks their
offsets composite (the marking phase leaves every flag of a value `≤ 1`
set): the extraction filter alone rejects them, admitting a value only when
it exceeds 1 and its flag is still set. -/
theorem claim_C7 (s e : Nat) (bp : List Nat) (hs1 : s ≤ 1) (he : 1 ≤ e)
    (hbp : ∀ p ∈ bp, 2 ≤ p) :
    ∃ arr2 l,
      markAllPrimes s e bp (List.replicate (e - s + 1) true) = some arr2 ∧
      (∀ n, s ≤ n → n ≤ 1 → getB arr2 (n - s) = true) ∧
      collectSegAux s e arr2 (e + 1) s = some l ∧
      sieveWorker s e bp = some l ∧
      0 ∉ l ∧ 1 ∉ l := by
  obtain ⟨arr2, heqM, hlenM, hcharM⟩ :=
    markAllPrimes_spec s e bp (List.replicate (e - s + 1) true)
      (fun p hp => by have := hbp p hp; omega) (by simp)
  obtain ⟨l, heqC, hsort, hmem⟩ :=
    collectSegAux_spec s e arr2 hlenM (e + 1) s (by omega) (Nat.le_refl s)
  refine ⟨arr2, l, heqM, ?_, heqC, ?_, ?_, ?_⟩
  · intro n hsn hn1
    rw [hcharM n hsn (by omega)]
    refine ⟨getB_replicate (e - s + 1) (n - s) true (by omega),
      fun p hp hc => ?_⟩
    have h2 := hbp p hp
    have h4 : 4 ≤ p * p := Nat.mul_le_mul h2 h2
    have := hc.2
    omega
  · simp only [sieveWorker, heqM, Option.bind_eq_bind, Option.some_bind, heqC]
  · intro h0
    obtain ⟨-, -, hgt, -⟩ := (hmem 0).mp h0
    omega
  · intro h1
    obtain ⟨-, -, hgt, -⟩ := (hmem 1).mp h1
    omega

theorem claim_C7_witness :
    (1 ≤ 1 ∧ 1 ≤ 10) ∧
    (∃ arr2 l,
      markAllPrimes 1 10 [2, 3] (List.replicate (10 - 1 + 1) true) =
          some arr2 ∧
      (∀ n, 1 ≤ n → n ≤ 1 → getB arr2 (n - 1) = true) ∧
      collectSegAux 1 10 arr2 (10 + 1) 1 = some l ∧
      sieveWorker 1 10 [2, 3] = some l ∧
      0 ∉ l ∧ 1 ∉ l) :=
  ⟨⟨le_refl 1, by norm_num⟩,
    claim_C7 1 10 [2, 3] (le_refl 1) (by norm_num) (by decide)⟩

/-- C8 counterexample: at `limit = 0` — a valid input per the claim — the
base sieve is not error-free: `vector<bool> isPrime(1)` is allocated and
the very next statement writes `isPrime[1]`, one past the end (undefined
behaviour, `none` in the model). -/
theorem claim_C8_cex : simpleSieve 0 = none := rfl

/-- C8 (amended): the base sieve encounters no error condition for any
limit `≥ 1` — within the contract domain `limit ≥ 1` of the Base Sieve —
and returns the empty sequence for `limit < 2` (i.e. `limit = 1`).  At
`limit = 0` the claim as stated fails: the write `isPrime[1]` is out of
range (see `claim_C8_cex`). -/
theorem claim_C8 (L : Nat) (hL : 1 ≤ L) :
    ∃ l, simpleSieve L = some l ∧ (L < 2 → l = []) := by
  obtain ⟨l, heq, hsort, hmem⟩ := simpleSieve_correct L hL
  refine ⟨l, heq, fun h2 => ?_⟩
  rw [List.eq_nil_iff_forall_not_mem]
  intro n hn
  obtain ⟨hp, hle⟩ := (hmem n).mp hn
  have := hp.two_le
  omega

theorem claim_C8_witness :
    1 ≤ 1 ∧ ∃ l, simpleSieve 1 = some l ∧ (1 < 2 → l = []) :=
  ⟨le_refl 1, claim_C8 1 (le_refl 1)⟩

/-- C9: the concrete scenarios.  For `rangeStart = 1`, `rangeEnd = 100`,
`workerCount = 4` the pipeline produces count 25, sum 1060 and the stated
top ten, and for `rangeStart = 1`, `rangeEnd = 30` (default 8 workers) the
stated prime list with count 10 and sum 129. -/
theorem claim_C9 :
    runMain 1 100 4 =
      some ([2, 3, 5, 7, 11, 13, 17, 19, 23, 29, 31, 37, 41, 43, 47,
             53, 59, 61, 67, 71, 73, 79, 83, 89, 97],
        ⟨25, 1060, [53, 59, 61, 67, 71, 73, 79, 83, 89, 97]⟩) ∧
    runMain 1 30 8 =
      some ([2, 3, 5, 7, 11, 13, 17, 19, 23, 29],
        ⟨10, 129, [2, 3, 5, 7, 11, 13, 17, 19, 23, 29]⟩) := by
  constructor
  · have h : Nat.sqrt 100 = 10 := by norm_num
    simp only [runMain, h]
    rfl
  · have h : Nat.sqrt 30 = 5 := by norm_num
    simp only [runMain, h]
    rfl

/-- C10: every access of the segment worker to its local boolean mapping is
in bounds.  For any chunk `[s, e]` with `1 ≤ s ≤ e` and base primes
`≥ 2`, the first marked multiple `max(p², ⌈s / p⌉·p)` is at least `s`, and
the whole worker — whose every read and write is bounds-checked in this
model, returning `none` on any out-of-range index — completes with a
result. -/
theorem claim_C10 (s e : Nat) (bp : List Nat) (hs : 1 ≤ s) (hse : s ≤ e)
    (hbp : ∀ p ∈ bp, 2 ≤ p) :
    (∀ p ∈ bp, s ≤ firstMul s p) ∧ ∃ l, sieveWorker s e bp = some l := by
  refine ⟨fun p hp => firstMul_ge s p (by have := hbp p hp; omega), ?_⟩
  obtain ⟨l, heq, -, -⟩ :=
    sieveWorker_spec s e bp (fun p hp => by have := hbp p hp; omega)
  exact ⟨l, heq⟩

theorem claim_C10_witness :
    (1 ≤ 1 ∧ 1 ≤ 30) ∧
    ((∀ p ∈ [2, 3, 5], 1 ≤ firstMul 1 p) ∧
      ∃ l, sieveWorker 1 30 [2, 3, 5] = some l) :=
  ⟨⟨le_refl 1, by norm_num⟩,
    claim_C10 1 30 [2, 3, 5] (le_refl 1) (by norm_num) (by decide)⟩
